import Mathlib

/-!
Verification of the UTM campaign-URL core of
halchemylab/natural-language-campaign-url-builder (src/utils.py).

Strings are modelled as `List Char` (`Str`).  The repository's core
delegates URL parsing, query decoding and query encoding to CPython 3.11's
`urllib.parse`; those library functions are embedded here as well
(`urlsplit`, `urlparse`, `urlunparse`, `parse_qsl`, `urlencode`,
`quote_plus`, `unquote`), following the CPython 3.11 sources.  Two
refinements of the stdlib are noted inline where they occur: the NFKC
netloc check (which raises only for exotic non-ASCII netlocs) is modelled
as a no-op, and `str.isupper` is modelled on the ASCII range.
-/

set_option maxRecDepth 4000

abbrev Str := List Char

/-! ### Python `str.strip` (whitespace set of CPython `str.strip()`) -/

/-- The characters stripped by Python's `str.strip()` with no argument. -/
def pyIsSpace (c : Char) : Bool :=
  c = ' ' || c = '\t' || c = '\n' || c = '\x0b' || c = '\x0c' || c = '\r' ||
  c = '\x1c' || c = '\x1d' || c = '\x1e' || c = '\x1f' ||
  c = '\u0085' || c = '\u00a0' || c = '\u1680' ||
  ('\u2000' ≤ c && c ≤ '\u200a') ||
  c = '\u2028' || c = '\u2029' || c = '\u202f' || c = '\u205f' || c = '\u3000'

/-- Python's `s.strip()`: drop leading and trailing whitespace. -/
def strip (s : Str) : Str :=
  ((s.dropWhile pyIsSpace).reverse.dropWhile pyIsSpace).reverse

/-- Python's `s.startswith(prefix)` (a single prefix). -/
def startswith : Str → Str → Bool
  | [], _ => true
  | _ :: _, [] => false
  | c :: cs, d :: ds => c = d && startswith cs ds

/-- Python's `s.find(sep)` for a single character: index of the first
occurrence, `none` when absent (Python returns `-1`). -/
def findChar (sep : Char) : Str → Option Nat
  | [] => none
  | c :: rest => if c = sep then some 0 else (findChar sep rest).map (· + 1)

/-- Python's `s.split(sep, 1)` when `sep` occurs, else `(s, '')` combined
with the `if sep in s` guard used at the call sites in `urlsplit`. -/
def splitFirst (sep : Char) (s : Str) : Str × Str :=
  match findChar sep s with
  | none => (s, [])
  | some i => (s.take i, s.drop (i + 1))

/-- Python's `s.split(sep)`: split at every occurrence of `sep`. -/
def splitSep (sep : Char) : Str → List Str
  | [] => [[]]
  | c :: rest =>
    if c = sep then [] :: splitSep sep rest
    else
      match splitSep sep rest with
      | [] => [[c]]
      | h :: t => (c :: h) :: t

/-! ### src/utils.py `normalize_url` -/

def httpPrefix : Str := "http://".toList
def httpsPrefix : Str := "https://".toList

/-- `normalize_url` from src/utils.py lines 98-105: empty input is
returned as is; otherwise the input is stripped and, when the stripped
string starts with neither `http://` nor `https://`, `https://` is
prepended. -/
def normalize_url (url : Str) : Str :=
  if url = [] then []
  else
    let t := strip url
    if startswith httpPrefix t || startswith httpsPrefix t then t
    else httpsPrefix ++ t

/-- The normalizer exactly as the spec describes it (for comparison with
`normalize_url`): trim, then an input that is empty after trimming yields
the empty string, a trimmed input without an `http://`/`https://` prefix
gets `https://` prepended, and otherwise the trimmed input is returned
unchanged. -/
def normalize_url_spec (url : Str) : Str :=
  let t := strip url
  if t = [] then []
  else if startswith httpPrefix t || startswith httpsPrefix t then t
  else httpsPrefix ++ t

/-! ### Percent-codec of `urllib.parse` (CPython 3.11)

`quote`/`quote_plus` percent-encode the UTF-8 bytes of a string;
`unquote`/`unquote_plus` decode `%XX` runs inside ASCII chunks back to
bytes and UTF-8-decode them with `errors='replace'`. -/

def isHexDigitCh (c : Char) : Bool :=
  ('0' ≤ c && c ≤ '9') || ('A' ≤ c && c ≤ 'F') || ('a' ≤ c && c ≤ 'f')

def hexVal (c : Char) : Nat :=
  if '0' ≤ c && c ≤ '9' then c.toNat - '0'.toNat
  else if 'A' ≤ c && c ≤ 'F' then c.toNat - 'A'.toNat + 10
  else c.toNat - 'a'.toNat + 10

/-- Uppercase hex digit, as produced by `'%{:02X}'.format(b)`. -/
def hexDigitUpper (n : Nat) : Char :=
  if n < 10 then Char.ofNat ('0'.toNat + n)
  else Char.ofNat ('A'.toNat + (n - 10))

/-- UTF-8 encoding of one scalar value (Python `str.encode('utf-8')`,
per character). -/
def utf8Encode (c : Char) : List Nat :=
  let n := c.toNat
  if n < 0x80 then [n]
  else if n < 0x800 then [0xC0 + n / 64, 0x80 + n % 64]
  else if n < 0x10000 then
    [0xE0 + n / 4096, 0x80 + (n / 64) % 64, 0x80 + n % 64]
  else
    [0xF0 + n / 262144, 0x80 + (n / 4096) % 64, 0x80 + (n / 64) % 64,
     0x80 + n % 64]

def isContByte (b : Nat) : Bool := 0x80 ≤ b && b ≤ 0xBF

/-- Allowed second byte of a three-byte sequence (excludes overlong forms
and surrogates, as CPython's UTF-8 decoder does). -/
def cont3ok (b b2 : Nat) : Bool :=
  if b = 0xE0 then 0xA0 ≤ b2 && b2 ≤ 0xBF
  else if b = 0xED then 0x80 ≤ b2 && b2 ≤ 0x9F
  else isContByte b2

/-- Allowed second byte of a four-byte sequence. -/
def cont4ok (b b2 : Nat) : Bool :=
  if b = 0xF0 then 0x90 ≤ b2 && b2 ≤ 0xBF
  else if b = 0xF4 then 0x80 ≤ b2 && b2 ≤ 0x8F
  else isContByte b2

def replChar : Char := '�'

/-- `bytes.decode('utf-8', errors='replace')`: each maximal invalid
subpart becomes one U+FFFD, as in CPython's decoder. -/
def utf8Decode : List Nat → Str
  | [] => []
  | b :: rest =>
    if b < 0x80 then Char.ofNat b :: utf8Decode rest
    else if 0xC2 ≤ b && b ≤ 0xDF then
      match rest with
      | [] => [replChar]
      | b2 :: rest2 =>
        if isContByte b2 then
          Char.ofNat ((b - 0xC0) * 64 + (b2 - 0x80)) :: utf8Decode rest2
        else replChar :: utf8Decode (b2 :: rest2)
    else if 0xE0 ≤ b && b ≤ 0xEF then
      match rest with
      | [] => [replChar]
      | b2 :: rest2 =>
        if cont3ok b b2 then
          match rest2 with
          | [] => [replChar]
          | b3 :: rest3 =>
            if isContByte b3 then
              Char.ofNat ((b - 0xE0) * 4096 + (b2 - 0x80) * 64 + (b3 - 0x80)) ::
                utf8Decode rest3
            else replChar :: utf8Decode (b3 :: rest3)
        else replChar :: utf8Decode (b2 :: rest2)
    else if 0xF0 ≤ b && b ≤ 0xF4 then
      match rest with
      | [] => [replChar]
      | b2 :: rest2 =>
        if cont4ok b b2 then
          match rest2 with
          | [] => [replChar]
          | b3 :: rest3 =>
            if isContByte b3 then
              match rest3 with
              | [] => [replChar]
              | b4 :: rest4 =>
                if isContByte b4 then
                  Char.ofNat ((b - 0xF0) * 262144 + (b2 - 0x80) * 4096 +
                      (b3 - 0x80) * 64 + (b4 - 0x80)) :: utf8Decode rest4
                else replChar :: utf8Decode (b4 :: rest4)
            else replChar :: utf8Decode (b3 :: rest3)
        else replChar :: utf8Decode (b2 :: rest2)
    else replChar :: utf8Decode rest
  termination_by l => l.length
  decreasing_by all_goals (simp_all [List.length_cons]; try omega)

/-- `unquote_to_bytes` restricted to an ASCII chunk: a linear scan that
turns each `%` followed by two hex digits into a byte and keeps every
other character as its own byte (equivalent to CPython's split-on-`%`
loop). -/
def percentDecodeBytes : Str → List Nat
  | [] => []
  | '%' :: a :: b :: rest =>
    if isHexDigitCh a && isHexDigitCh b then
      (16 * hexVal a + hexVal b) :: percentDecodeBytes rest
    else '%'.toNat :: percentDecodeBytes (a :: b :: rest)
  | c :: rest => c.toNat :: percentDecodeBytes rest

lemma length_dropWhile_le (p : Char → Bool) (l : Str) :
    (l.dropWhile p).length ≤ l.length := by
  induction l with
  | nil => simp
  | cons c rest ih =>
    by_cases h : p c
    · simpa [List.dropWhile_cons_of_pos h] using Nat.le_succ_of_le ih
    · simp [List.dropWhile_cons_of_neg h]

/-- CPython `unquote`: the string is cut into maximal ASCII chunks (via
the regex `([\x00-\x7f]+)`); each ASCII chunk is percent-decoded to bytes
and UTF-8-decoded with replacement, non-ASCII characters pass through. -/
def unquoteAux : Str → Str
  | [] => []
  | c :: rest =>
    if c.toNat ≤ 127 then
      utf8Decode (percentDecodeBytes (c :: rest.takeWhile (fun d => d.toNat ≤ 127))) ++
        unquoteAux (rest.dropWhile (fun d => d.toNat ≤ 127))
    else c :: unquoteAux rest
  termination_by s => s.length
  decreasing_by
    · exact Nat.lt_succ_of_le (length_dropWhile_le _ rest)
    · simp

/-- `unquote(string)` with the default utf-8/replace parameters.  The
`'%' not in string` early return of CPython is behaviourally the
identity on such strings; both branches are kept for fidelity. -/
def unquote (s : Str) : Str :=
  if s.any (fun c => c = '%') then unquoteAux s else s

/-- Python's `s.replace('+', ' ')`, used by `parse_qsl` on names and
values before unquoting. -/
def plusToSpace (s : Str) : Str :=
  s.map (fun c => if c = '+' then ' ' else c)

/-- `_ALWAYS_SAFE` of urllib.parse, as bytes. -/
def alwaysSafeBytes : List Nat :=
  ("ABCDEFGHIJKLMNOPQRSTUVWXYZabcdefghijklmnopqrstuvwxyz0123456789_.-~".toList).map
    Char.toNat

/-- `quote_from_bytes(bs, safe)`: bytes in the always-safe set or the
(ASCII-normalized) safe set stay as characters, every other byte becomes
`%XX` with uppercase hex. -/
def quote_from_bytes (bs : List Nat) (safeB : List Nat) : Str :=
  bs.flatMap fun b =>
    if b ∈ alwaysSafeBytes ∨ b ∈ safeB then [Char.ofNat b]
    else '%' :: hexDigitUpper (b / 16) :: hexDigitUpper (b % 16) :: []

/-- `quote(string, safe)` for str input with default utf-8 encoding:
encode to UTF-8 bytes and quote them; non-ASCII characters in `safe`
are dropped (`safe.encode('ascii', 'ignore')`). -/
def pyQuote (s : Str) (safe : Str) : Str :=
  if s = [] then []
  else
    quote_from_bytes (s.flatMap utf8Encode)
      ((safe.filter (fun c => c.toNat < 128)).map Char.toNat)

/-- `quote_plus(string, safe)`: when the string contains a space, quote
with space added to the safe set and then turn each space into `+`. -/
def quote_plus (s : Str) (safe : Str) : Str :=
  if ¬ s.any (fun c => c = ' ') then pyQuote s safe
  else (pyQuote s (safe ++ [' '])).map fun c => if c = ' ' then '+' else c

/-- `parse_qsl(qs)` with the default arguments used by
`build_campaign_url` (keep_blank_values=False, separator='&'):
empty segments are skipped, segments without `=` are skipped, segments
with an empty value are skipped, and names/values are `+`-unescaped and
percent-decoded. -/
def parse_qsl (qs : Str) : List (Str × Str) :=
  let pairs := if qs = [] then [] else splitSep '&' qs
  pairs.filterMap fun nv =>
    if nv = [] then none
    else
      match findChar '=' nv with
      | none => none
      | some i =>
        let n := nv.take i
        let v := nv.drop (i + 1)
        if v = [] then none
        else some (unquote (plusToSpace n), unquote (plusToSpace v))

/-- `urlencode(query, safe)` over a list of pairs with the default
`quote_via=quote_plus` (the call in src/utils.py passes `safe='/'`). -/
def urlencode (query : List (Str × Str)) (safe : Str) : Str :=
  List.intercalate ['&']
    (query.map fun kv => quote_plus kv.1 safe ++ '=' :: quote_plus kv.2 safe)

/-! ### `urlsplit` / `urlparse` / `urlunsplit` / `urlunparse`
(CPython 3.11 urllib/parse.py) -/

structure SplitResult where
  scheme : Str
  netloc : Str
  path : Str
  query : Str
  fragment : Str
deriving DecidableEq, Repr

structure ParseResult where
  scheme : Str
  netloc : Str
  path : Str
  params : Str
  query : Str
  fragment : Str
deriving DecidableEq, Repr

deriving instance DecidableEq for Except

/-- Schemes of `uses_params` (urllib.parse, CPython 3.11.6). -/
def uses_params : List Str :=
  ["", "ftp", "hdl", "prospero", "http", "imap", "https", "shttp", "rtsp",
   "rtsps", "rtspu", "sip", "sips", "mms", "sftp", "tel"].map String.toList

/-- Schemes of `uses_netloc` (urllib.parse, CPython 3.11.6). -/
def uses_netloc : List Str :=
  ["", "ftp", "http", "gopher", "nntp", "telnet", "imap", "wais", "file",
   "mms", "https", "shttp", "snews", "prospero", "rtsp", "rtsps", "rtspu",
   "rsync", "svn", "svn+ssh", "sftp", "nfs", "git", "git+ssh", "ws",
   "wss"].map String.toList

/-- Characters valid in scheme names (`scheme_chars`). -/
def isSchemeChar (c : Char) : Bool :=
  c.isAlpha || c.isDigit || c = '+' || c = '-' || c = '.'

/-- The scheme-extraction step of `urlsplit`: take everything before the
first `:` as the scheme when there is a positive-index colon, the first
character is an ASCII letter and all candidate characters are scheme
characters; the scheme is lowercased.  Otherwise the scheme is empty and
the url is left untouched. -/
def splitScheme (url : Str) : Str × Str :=
  match findChar ':' url with
  | none => ([], url)
  | some i =>
    if 0 < i then
      match url with
      | [] => ([], url)
      | c :: _ =>
        if (decide (c.toNat < 128) && c.isAlpha) && (url.take i).all isSchemeChar
        then ((url.take i).map Char.toLower, url.drop (i + 1))
        else ([], url)
    else ([], url)

def isNetlocDelim (c : Char) : Bool := c = '/' || c = '?' || c = '#'

/-- The leading `_WHATWG_C0_CONTROL_OR_SPACE` strip of `urlsplit`
(`url.lstrip(...)`, characters U+0000 to U+0020). -/
def lstripControl (url : Str) : Str :=
  url.dropWhile fun c => c.toNat ≤ 0x20

/-- The `\t`/`\r`/`\n` removal of `_UNSAFE_URL_BYTES_TO_REMOVE`. -/
def removeUnsafeBytes (url : Str) : Str :=
  url.filter fun c => ¬ (c = '\t' || c = '\r' || c = '\n')

/-- The `Invalid IPv6 URL` condition on a netloc: one bracket present
without its partner. -/
def bracketMismatch (netloc : Str) : Bool :=
  (netloc.any (fun c => c = '[') && ¬ netloc.any (fun c => c = ']')) ||
  (netloc.any (fun c => c = ']') && ¬ netloc.any (fun c => c = '['))

/-! Validation of bracketed hosts (`_check_bracketed_host`, which
delegates to `ipaddress.ip_address`).  Only validity is modelled, not the
numeric address value. -/

/-- `IPv4Address._parse_octet` validity: 1-3 ASCII decimal digits, no
leading zero (except `0` itself), value at most 255. -/
def parse_octet_ok (s : Str) : Bool :=
  s ≠ [] && s.all Char.isDigit && s.length ≤ 3 &&
  (s = ['0'] || s.head? ≠ some '0') &&
  s.foldl (fun a c => 10 * a + (c.toNat - '0'.toNat)) 0 ≤ 255

/-- `IPv4Address(str)` validity: no `/`, exactly four valid octets. -/
def ipv4_ok (s : Str) : Bool :=
  ¬ s.any (fun c => c = '/') && s ≠ [] &&
  (splitSep '.' s).length = 4 && (splitSep '.' s).all parse_octet_ok

/-- `IPv6Address._parse_hextet` validity: 1-4 hex digits. -/
def parse_hextet_ok (s : Str) : Bool :=
  s ≠ [] && s.all isHexDigitCh && s.length ≤ 4

/-- The part-counting core of `IPv6Address._ip_int_from_string`, applied
after the embedded-IPv4 suffix has been converted: at most 9 parts, at
most one empty inner part (the `::`), endpoint emptiness only next to the
`::`, and every counted part a valid hextet. -/
def ipv6_parts_ok (parts : List Str) : Bool :=
  let n := parts.length
  parts.length ≤ 9 &&
  (let inner := (parts.drop 1).take (n - 2)
   let skips := inner.enum.filter fun p => p.2 = []
   match skips with
   | [] =>
     n = 8 && parts.head? ≠ some [] && parts.getLast? ≠ some [] &&
     parts.all parse_hextet_ok
   | [(i0, _)] =>
     let skip := i0 + 1
     let hi0 := skip
     let lo0 := n - skip - 1
     let headEmpty := parts.head? = some []
     let lastEmpty := parts.getLast? = some []
     let hi := if headEmpty then hi0 - 1 else hi0
     let lo := if lastEmpty then lo0 - 1 else lo0
     (¬ headEmpty || hi0 ≤ 1) && (¬ lastEmpty || lo0 ≤ 1) &&
     hi + lo ≤ 7 &&
     (parts.take hi).all parse_hextet_ok &&
     (parts.drop (n - lo)).all parse_hextet_ok
   | _ => false)

/-- `IPv6Address._ip_int_from_string` validity: at least three parts,
optional embedded IPv4 suffix (which counts as two hextets). -/
def ipv6_addr_ok (s : Str) : Bool :=
  s ≠ [] &&
  (let parts0 := splitSep ':' s
   3 ≤ parts0.length &&
   match parts0.getLast? with
   | none => false
   | some lastP =>
     if lastP.any (fun c => c = '.') then
       ipv4_ok lastP && ipv6_parts_ok (parts0.dropLast ++ [['0'], ['0']])
     else ipv6_parts_ok parts0)

/-- `IPv6Address(str)` validity: no `/`, optional non-empty `%scope`
without a further `%`. -/
def ipv6_ok (s : Str) : Bool :=
  ¬ s.any (fun c => c = '/') &&
  match findChar '%' s with
  | none => ipv6_addr_ok s
  | some i =>
    let scope := s.drop (i + 1)
    scope ≠ [] && ¬ scope.any (fun c => c = '%') && ipv6_addr_ok (s.take i)

/-- `_check_bracketed_host(hostname)` as a validity predicate: an
IPvFuture literal `v<hex>+.<char>+`, or a valid IPv6 (not IPv4) address.
Returns `true` when the check passes. -/
def check_bracketed_host (hostname : Str) : Bool :=
  match hostname with
  | 'v' :: afterV =>
    let hexRun := afterV.takeWhile isHexDigitCh
    let rest := afterV.dropWhile isHexDigitCh
    hexRun ≠ [] &&
    (match rest with
     | '.' :: tail => tail ≠ [] && ¬ tail.any (fun c => c = '\n')
     | _ => false)
  | _ => if ipv4_ok hostname then false else ipv6_ok hostname

/-- `urlsplit(url)` with default arguments (CPython 3.11.6).  The
`_checknetloc` NFKC refinement is not modelled: it is a no-op for every
all-ASCII netloc and raises only for exotic non-ASCII netlocs; the
modelled failure modes are the bracket-mismatch `ValueError` and the
bracketed-host validation. -/
def urlsplit (url0 : Str) : Except Unit SplitResult :=
  let url1 := removeUnsafeBytes (lstripControl url0)
  let sp := splitScheme url1
  let scheme := sp.1
  let url2 := sp.2
  if url2.take 2 = ['/', '/'] then
    let netloc := (url2.drop 2).takeWhile fun c => ¬ isNetlocDelim c
    let rest := (url2.drop 2).dropWhile fun c => ¬ isNetlocDelim c
    if bracketMismatch netloc then .error ()
    else if netloc.any (fun c => c = '[') && netloc.any (fun c => c = ']') then
      let bracketed := (splitFirst ']' (splitFirst '[' netloc).2).1
      if check_bracketed_host bracketed then
        let f := splitFirst '#' rest
        let q := splitFirst '?' f.1
        .ok ⟨scheme, netloc, q.1, q.2, f.2⟩
      else .error ()
    else
      let f := splitFirst '#' rest
      let q := splitFirst '?' f.1
      .ok ⟨scheme, netloc, q.1, q.2, f.2⟩
  else
    let f := splitFirst '#' url2
    let q := splitFirst '?' f.1
    .ok ⟨scheme, [], q.1, q.2, f.2⟩

/-- `_splitparams(url)`: split the params segment after the last `/`
(or anywhere when there is no `/`). -/
def splitparams (url : Str) : Str × Str :=
  match url.reverse.findIdx? (fun c => c = '/') with
  | none =>
    match findChar ';' url with
    | none => (url, [])
    | some i => (url.take i, url.drop (i + 1))
  | some r =>
    let j := url.length - 1 - r
    match findChar ';' (url.drop j) with
    | none => (url, [])
    | some d => (url.take (j + d), url.drop (j + d + 1))

/-- `urlparse(url)` with default arguments: `urlsplit` plus the params
split for schemes in `uses_params`. -/
def urlparse (url : Str) : Except Unit ParseResult :=
  match urlsplit url with
  | .error e => .error e
  | .ok s =>
    if s.scheme ∈ uses_params ∧ s.path.any (fun c => c = ';') then
      let pp := splitparams s.path
      .ok ⟨s.scheme, s.netloc, pp.1, pp.2, s.query, s.fragment⟩
    else .ok ⟨s.scheme, s.netloc, s.path, [], s.query, s.fragment⟩

/-- `urlunsplit(components)` (CPython 3.11). -/
def urlunsplit (c : SplitResult) : Str :=
  let url0 := c.path
  let url1 :=
    if c.netloc ≠ [] ∨
        (c.scheme ≠ [] ∧ c.scheme ∈ uses_netloc ∧ url0.take 2 ≠ ['/', '/'])
    then
      let u := if url0 ≠ [] ∧ url0.take 1 ≠ ['/'] then '/' :: url0 else url0
      '/' :: '/' :: (c.netloc ++ u)
    else url0
  let url2 := if c.scheme ≠ [] then c.scheme ++ ':' :: url1 else url1
  let url3 := if c.query ≠ [] then url2 ++ '?' :: c.query else url2
  if c.fragment ≠ [] then url3 ++ '#' :: c.fragment else url3

/-- `urlunparse(components)`: re-attach the params segment and unsplit. -/
def urlunparse (p : ParseResult) : Str :=
  urlunsplit
    ⟨p.scheme, p.netloc,
     if p.params ≠ [] then p.path ++ ';' :: p.params else p.path,
     p.query, p.fragment⟩

/-! ### The campaign record and the dict semantics of the merge -/

/-- The seven-field campaign record consumed by `build_campaign_url`
(src/utils.py lines 129-137): `source` and `medium` are plain strings,
the four remaining UTM fields are optional. -/
structure CampaignRecord where
  source : Str
  medium : Str
  campaign_name : Option Str
  campaign_id : Option Str
  term : Option Str
  content : Option Str
deriving DecidableEq, Repr

def kUtmSource : Str := "utm_source".toList
def kUtmMedium : Str := "utm_medium".toList
def kUtmCampaign : Str := "utm_campaign".toList
def kUtmId : Str := "utm_id".toList
def kUtmTerm : Str := "utm_term".toList
def kUtmContent : Str := "utm_content".toList

/-- The `utm_params` dict literal of src/utils.py lines 158-165, in
insertion order, before the emptiness filter. -/
def utm_params_list (r : CampaignRecord) : List (Str × Option Str) :=
  [(kUtmSource, some r.source), (kUtmMedium, some r.medium),
   (kUtmCampaign, r.campaign_name), (kUtmId, r.campaign_id),
   (kUtmTerm, r.term), (kUtmContent, r.content)]

/-- The dict comprehension `{k: v for k, v in utm_params.items() if v}`:
entries whose value is `None` or the empty string are dropped. -/
def dropBlank (l : List (Str × Option Str)) : List (Str × Str) :=
  l.filterMap fun kv =>
    match kv.2 with
    | some v => if v = [] then none else some (kv.1, v)
    | none => none

/-- The surviving UTM entries of a record (line 168). -/
def utm_filtered (r : CampaignRecord) : List (Str × Str) :=
  dropBlank (utm_params_list r)

/-- One assignment `d[k] = v` on a Python (insertion-ordered) dict
modelled as an association list with unique keys: an existing key keeps
its position and gets the new value, a new key is appended. -/
def dictInsert (d : List (Str × Str)) (k : Str) (v : Str) :
    List (Str × Str) :=
  if d.any (fun p => p.1 = k) then
    d.map fun p => if p.1 = k then (k, v) else p
  else d ++ [(k, v)]

/-- `d.update(l)` / `dict(l)`: left-to-right assignments. -/
def dictUpdate (d : List (Str × Str)) (l : List (Str × Str)) :
    List (Str × Str) :=
  l.foldl (fun d kv => dictInsert d kv.1 kv.2) d

/-- `dict(l)` for a pair list (as in `dict(parse_qsl(...))`). -/
def dictOfList (l : List (Str × Str)) : List (Str × Str) :=
  dictUpdate [] l

/-- Dict lookup on the association-list model. -/
def lookupKey (k : Str) : List (Str × Str) → Option Str
  | [] => none
  | p :: rest => if p.1 = k then some p.2 else lookupKey k rest

/-- The value of the last occurrence of a key in a raw pair list
(standard query-string decoding semantics: last occurrence wins). -/
def lastLookup (k : Str) (l : List (Str × Str)) : Option Str :=
  lookupKey k l.reverse

/-- The merged query mapping of `build_campaign_url` (lines 155-171):
the decoded existing query as a dict, updated with the surviving UTM
entries. -/
def merged_query_pairs (q : Str) (r : CampaignRecord) :
    List (Str × Str) :=
  dictUpdate (dictOfList (parse_qsl q)) (utm_filtered r)

/-- `build_campaign_url` (src/utils.py lines 129-186). -/
def build_campaign_url (base_url : Str) (r : CampaignRecord) : Str :=
  if base_url = [] then []
  else
    let base := normalize_url base_url
    match urlparse base with
    | .error _ => base
    | .ok p =>
      let new_query := urlencode (merged_query_pairs p.query r) ['/']
      urlunparse ⟨p.scheme, p.netloc, p.path, p.params, new_query, p.fragment⟩

/-- A record with every field empty or absent. -/
def blankRecord : CampaignRecord := ⟨[], [], none, none, none, none⟩

/-! ### `lint_utm_parameter` (src/utils.py lines 188-211) -/

def msg_uppercase : Str :=
  "Contains uppercase letters (lowercase is preferred for consistency)".toList
def msg_spaces : Str :=
  "Contains spaces (use underscores or hyphens instead)".toList
def msg_special : Str :=
  "Contains special characters (stick to alphanumeric, -, and _)".toList

/-- Python's single-character `str.isupper()`, modelled on the ASCII
range (the Unicode casing table is out of scope of this embedding). -/
def pyIsUpper (c : Char) : Bool := c.isUpper

/-- The character class of the regex `[a-zA-Z0-9\-_]`. -/
def isLintSafe (c : Char) : Bool :=
  c.isAlpha || c.isDigit || c = '-' || c = '_'

def hasUppercase (v : Str) : Bool := v.any pyIsUpper
def hasSpace (v : Str) : Bool := v.any (fun c => c = ' ')
def hasSpecial (v : Str) : Bool := v.any (fun c => ¬ isLintSafe c)

/-- `lint_utm_parameter(value)`: empty/None yields no warnings; the
three checks append their message in a fixed order. -/
def lint_utm_parameter (value : Option Str) : List Str :=
  match value with
  | none => []
  | some v =>
    if v = [] then []
    else
      (if hasUppercase v then [msg_uppercase] else []) ++
      (if hasSpace v then [msg_spaces] else []) ++
      (if hasSpecial v then [msg_special] else [])

/-! ### `validate_url_reachability` (src/utils.py lines 107-127)

The two network probes are oracles: each either reports a status code or
raises.  The embedding returns, besides the boolean result, the number
of HEAD-style and GET-style probes issued. -/

inductive ProbeOutcome where
  | status (code : Nat)
  | exn
deriving DecidableEq, Repr

structure ProbeEnv where
  headOutcome : ProbeOutcome
  getOutcome : ProbeOutcome
deriving DecidableEq, Repr

structure ProbeResult where
  reachable : Bool
  headCalls : Nat
  getCalls : Nat
deriving DecidableEq, Repr

def validate_url_reachability (url : Str) (env : ProbeEnv) : ProbeResult :=
  if url = [] then ⟨false, 0, 0⟩
  else
    match env.headOutcome with
    | .exn => ⟨false, 1, 0⟩
    | .status c =>
      if c = 405 then
        match env.getOutcome with
        | .exn => ⟨false, 1, 1⟩
        | .status g => ⟨decide (200 ≤ g) && decide (g < 400), 1, 1⟩
      else ⟨decide (200 ≤ c) && decide (c < 400), 1, 0⟩

/-- The status code of the last probe that completed, if any: the HEAD
status, unless it is 405, in which case the GET status. -/
def final_observed_status (env : ProbeEnv) : Option Nat :=
  match env.headOutcome with
  | .exn => none
  | .status c =>
    if c = 405 then
      match env.getOutcome with
      | .exn => none
      | .status g => some g
    else some c

/-! ### Lemmas about `strip` and `startswith` -/

lemma head_of_dropWhile_false (p : Char → Bool) (l : Str) (c : Char) (t : Str)
    (h : l.dropWhile p = c :: t) : p c = false := by
  have hh := List.head?_dropWhile_not p l
  rw [h] at hh
  simpa using hh

lemma dropWhile_idem (p : Char → Bool) (l : Str) :
    (l.dropWhile p).dropWhile p = l.dropWhile p := by
  cases h : l.dropWhile p with
  | nil => simp
  | cons c t =>
    exact List.dropWhile_cons_of_neg (by
      simp [head_of_dropWhile_false p l c t h])

lemma dropWhile_suffix (p : Char → Bool) (l : Str) :
    ∃ t, l = t ++ l.dropWhile p := by
  induction l with
  | nil => exact ⟨[], rfl⟩
  | cons c rest ih =>
    by_cases h : p c
    · obtain ⟨t, ht⟩ := ih
      exact ⟨c :: t, by rw [List.dropWhile_cons_of_pos h, List.cons_append, ← ht]⟩
    · exact ⟨[], by rw [List.dropWhile_cons_of_neg h]; rfl⟩

lemma strip_head_false (s : Str) (c : Char)
    (h : (strip s).head? = some c) : pyIsSpace c = false := by
  unfold strip at h
  set A := s.dropWhile pyIsSpace with hA
  set B := A.reverse.dropWhile pyIsSpace with hB
  rw [List.head?_reverse] at h
  have hBne : B ≠ [] := by
    intro hb
    rw [hb] at h
    simp at h
  obtain ⟨t, ht⟩ := dropWhile_suffix pyIsSpace A.reverse
  rw [← hB] at ht
  have h2 : A.reverse.getLast? = some c := by
    rw [ht, List.getLast?_append_of_ne_nil _ hBne]
    exact h
  rw [List.getLast?_reverse] at h2
  cases hA2 : A with
  | nil => rw [hA2] at h2; simp at h2
  | cons a t2 =>
    rw [hA2] at h2
    simp only [List.head?_cons, Option.some.injEq] at h2
    subst h2
    exact head_of_dropWhile_false pyIsSpace s a t2 (by rw [← hA, hA2])

lemma strip_getLast_false (s : Str) (c : Char)
    (h : (strip s).getLast? = some c) : pyIsSpace c = false := by
  unfold strip at h
  rw [List.getLast?_reverse] at h
  cases hB : (s.dropWhile pyIsSpace).reverse.dropWhile pyIsSpace with
  | nil => rw [hB] at h; simp at h
  | cons b t =>
    rw [hB] at h
    simp only [List.head?_cons, Option.some.injEq] at h
    subst h
    exact head_of_dropWhile_false pyIsSpace _ b t hB

lemma strip_eq_self (l : Str)
    (h1 : ∀ c, l.head? = some c → pyIsSpace c = false)
    (h2 : ∀ c, l.getLast? = some c → pyIsSpace c = false) :
    strip l = l := by
  unfold strip
  have e1 : l.dropWhile pyIsSpace = l := by
    cases l with
    | nil => simp
    | cons c t => exact List.dropWhile_cons_of_neg (by simp [h1 c rfl])
  rw [e1]
  have e2 : l.reverse.dropWhile pyIsSpace = l.reverse := by
    cases hr : l.reverse with
    | nil => simp
    | cons c t =>
      have hc : l.getLast? = some c := by
        rw [← List.head?_reverse, hr]; rfl
      exact List.dropWhile_cons_of_neg (by simp [h2 c hc])
  rw [e2, List.reverse_reverse]

lemma strip_idem (s : Str) : strip (strip s) = strip s :=
  strip_eq_self _ (strip_head_false s) (strip_getLast_false s)

lemma startswith_append (p s : Str) : startswith p (p ++ s) = true := by
  induction p with
  | nil => rfl
  | cons c cs ih => simp [startswith, ih]

lemma startswith_iff (p s : Str) :
    startswith p s = true ↔ ∃ r, s = p ++ r := by
  induction p generalizing s with
  | nil => simp [startswith]
  | cons c cs ih =>
    cases s with
    | nil =>
      simp only [startswith, List.cons_append]
      constructor
      · intro h; cases h
      · rintro ⟨r, hr⟩; cases hr
    | cons d ds =>
      simp only [startswith, Bool.and_eq_true, decide_eq_true_eq, ih,
        List.cons_append, List.cons.injEq]
      constructor
      · rintro ⟨hc, r, hr⟩; exact ⟨r, hc.symm, hr⟩
      · rintro ⟨r, hd, hr⟩; exact ⟨hd.symm, r, hr⟩

lemma httpPrefix_eq :
    httpPrefix = 'h' :: 't' :: 't' :: 'p' :: ':' :: '/' :: '/' :: [] := rfl

lemma httpsPrefix_eq :
    httpsPrefix = 'h' :: 't' :: 't' :: 'p' :: 's' :: ':' :: '/' :: '/' :: [] :=
  rfl

/-- C9 -- The URL normalizer is idempotent: normalizing an
already-normalized string changes nothing, for every input string. -/
theorem C9_normalize_idempotent (x : Str) :
    normalize_url (normalize_url x) = normalize_url x := by
  by_cases hx : x = []
  · subst hx; rfl
  · simp only [normalize_url, if_neg hx]
    by_cases hp : (startswith httpPrefix (strip x) ||
        startswith httpsPrefix (strip x)) = true
    · rw [if_pos hp]
      have ht : strip x ≠ [] := by
        rw [Bool.or_eq_true] at hp
        rcases hp with h | h
        · obtain ⟨r, hr⟩ := (startswith_iff _ _).mp h
          rw [hr, httpPrefix_eq]; simp
        · obtain ⟨r, hr⟩ := (startswith_iff _ _).mp h
          rw [hr, httpsPrefix_eq]; simp
      simp only [normalize_url, if_neg ht]
      rw [strip_idem, if_pos hp]
    · rw [if_neg hp]
      have hne : httpsPrefix ++ strip x ≠ [] := by
        rw [httpsPrefix_eq]; simp
      have hs : strip (httpsPrefix ++ strip x) = httpsPrefix ++ strip x := by
        apply strip_eq_self
        · intro c hc
          rw [httpsPrefix_eq] at hc
          simp only [List.cons_append, List.head?_cons,
            Option.some.injEq] at hc
          subst hc; decide
        · intro c hc
          cases hst : strip x with
          | nil =>
            rw [hst, List.append_nil] at hc
            have h8 : httpsPrefix.getLast? = some '/' := by decide
            rw [h8] at hc
            cases hc; decide
          | cons d t =>
            rw [hst, List.getLast?_append_of_ne_nil _ (by simp)] at hc
            rw [← hst] at hc
            exact strip_getLast_false x c hc
      simp only [normalize_url, if_neg hne]
      rw [hs, startswith_append, Bool.or_true, if_pos rfl]

/-- C5 counterexample -- The claim that an input which is empty after
trimming yields the empty string fails on the code: a single space is
whitespace-only, yet `normalize_url` returns `https://` for it (the
emptiness test runs before trimming). -/
theorem C5_counterexample :
    strip (' ' :: []) = [] ∧ normalize_url (' ' :: []) ≠ [] ∧
    normalize_url (' ' :: []) = httpsPrefix ∧
    normalize_url_spec (' ' :: []) = [] := by
  refine ⟨by decide, by decide, by decide, by decide⟩

/-- C5 (amended) -- `normalize_url` agrees with the spec's description
of the normalizer on every input that is empty, or not whitespace-only:
it trims, returns a trimmed string with an `http://`/`https://` prefix
unchanged, and prepends `https://` otherwise.  (The two functions differ
exactly on whitespace-only non-empty inputs, where the code returns
`https://` and the spec demands the empty string.) -/
theorem C5_normalize_matches_spec (u : Str)
    (h : u = [] ∨ strip u ≠ []) :
    normalize_url u = normalize_url_spec u := by
  rcases h with h | h
  · subst h; rfl
  · have hu : u ≠ [] := by
      intro hn; subst hn; exact h rfl
    simp only [normalize_url, normalize_url_spec, if_neg hu, if_neg h]

/-- Witness for C5: the amended theorem applied at `"  example.com  "`. -/
theorem C5_witness :
    normalize_url ("  example.com  ".toList) =
      normalize_url_spec ("  example.com  ".toList) :=
  C5_normalize_matches_spec _ (Or.inr (by decide))

/-- C4 counterexample -- The claim that every base URL that is empty
after trimming yields the empty string fails on the code: for the
whitespace-only base `" "` (and an all-empty record) `build_campaign_url`
returns `https://`, because its emptiness test runs before trimming. -/
theorem C4_counterexample :
    strip (' ' :: []) = [] ∧
    build_campaign_url (' ' :: []) blankRecord ≠ [] ∧
    build_campaign_url (' ' :: []) blankRecord = httpsPrefix := by
  refine ⟨by decide, by decide, by decide⟩

/-- C4 (amended) -- `build_campaign_url` returns the empty string
immediately for the literally-empty base URL (and only for it among
blank inputs): a whitespace-only base is not short-circuited but
normalized to `https://` plus the trimmed remainder and processed. -/
theorem C4_empty_base :
    (∀ r : CampaignRecord, build_campaign_url [] r = []) ∧
    build_campaign_url (' ' :: []) blankRecord = httpsPrefix := by
  constructor
  · intro r; rfl
  · decide

/-! ### Lemmas on the dict semantics of the merge -/

lemma lookupKey_append (k : Str) (d l : List (Str × Str)) :
    lookupKey k (d ++ l) =
      match lookupKey k d with
      | some v => some v
      | none => lookupKey k l := by
  induction d with
  | nil => simp [lookupKey]
  | cons p rest ih =>
    by_cases h : p.1 = k
    · simp [lookupKey, h]
    · simp [lookupKey, h, ih]

lemma lookupKey_none_of_all (k : Str) (d : List (Str × Str))
    (h : ∀ p ∈ d, p.1 ≠ k) : lookupKey k d = none := by
  induction d with
  | nil => rfl
  | cons p rest ih =>
    rw [lookupKey, if_neg (h p (List.mem_cons_self p rest))]
    exact ih fun q hq => h q (List.mem_cons_of_mem p hq)

lemma lookupKey_map_overwrite_ne (k' v k : Str) (d : List (Str × Str))
    (hk : k' ≠ k) :
    lookupKey k (d.map fun p => if p.1 = k' then (k', v) else p) =
      lookupKey k d := by
  induction d with
  | nil => rfl
  | cons p rest ih =>
    by_cases hp : p.1 = k'
    · rw [List.map_cons, if_pos hp, lookupKey, if_neg hk, lookupKey,
        if_neg (hp ▸ hk), ih]
    · rw [List.map_cons, if_neg hp]
      by_cases hpk : p.1 = k
      · rw [lookupKey, if_pos hpk, lookupKey, if_pos hpk]
      · rw [lookupKey, if_neg hpk, lookupKey, if_neg hpk, ih]

lemma lookupKey_map_overwrite_eq (k' v : Str) (d : List (Str × Str))
    (h : d.any (fun p => decide (p.1 = k')) = true) :
    lookupKey k' (d.map fun p => if p.1 = k' then (k', v) else p) =
      some v := by
  induction d with
  | nil => simp at h
  | cons p rest ih =>
    by_cases hp : p.1 = k'
    · rw [List.map_cons, if_pos hp, lookupKey, if_pos rfl]
    · rw [List.map_cons, if_neg hp, lookupKey, if_neg hp]
      simp only [List.any_cons, Bool.or_eq_true, decide_eq_true_eq] at h
      rcases h with h | h
      · exact absurd h hp
      · exact ih h

lemma lookupKey_dictInsert (d : List (Str × Str)) (k' v k : Str) :
    lookupKey k (dictInsert d k' v) =
      if k' = k then some v else lookupKey k d := by
  unfold dictInsert
  by_cases hany : d.any (fun p => decide (p.1 = k')) = true
  · rw [if_pos hany]
    by_cases hk : k' = k
    · subst hk
      rw [if_pos rfl]
      exact lookupKey_map_overwrite_eq k' v d hany
    · rw [if_neg hk]
      exact lookupKey_map_overwrite_ne k' v k d hk
  · rw [if_neg hany]
    have hnone : ∀ q ∈ d, q.1 ≠ k' := by
      intro q hq hq1
      exact hany (List.any_eq_true.mpr ⟨q, hq, by simp [hq1]⟩)
    rw [lookupKey_append]
    by_cases hk : k' = k
    · subst hk
      rw [lookupKey_none_of_all k' d hnone]
      simp [lookupKey]
    · cases hd : lookupKey k d with
      | none => simp [lookupKey, hk]
      | some w => simp [hk]

lemma dictUpdate_cons (d : List (Str × Str)) (k v : Str) (l) :
    dictUpdate d ((k, v) :: l) = dictUpdate (dictInsert d k v) l := rfl

lemma dictUpdate_append_single (d l) (k v : Str) :
    dictUpdate d (l ++ [(k, v)]) = dictInsert (dictUpdate d l) k v := by
  simp [dictUpdate, List.foldl_append]

lemma lookupKey_dictUpdate (k : Str) (d l : List (Str × Str)) :
    lookupKey k (dictUpdate d l) =
      match lookupKey k l.reverse with
      | some v => some v
      | none => lookupKey k d := by
  induction l using List.reverseRecOn with
  | nil => simp [dictUpdate, lookupKey]
  | append_singleton l p ih =>
    obtain ⟨k', v⟩ := p
    rw [dictUpdate_append_single, lookupKey_dictInsert, List.reverse_append]
    simp only [List.reverse_cons, List.reverse_nil, List.nil_append,
      List.singleton_append]
    by_cases hk : k' = k
    · simp [lookupKey, hk]
    · rw [if_neg hk, lookupKey, if_neg hk, ih]

lemma nodupKeys_dictInsert (d : List (Str × Str)) (k v : Str)
    (h : (d.map Prod.fst).Nodup) :
    ((dictInsert d k v).map Prod.fst).Nodup := by
  unfold dictInsert
  by_cases hany : d.any (fun p => decide (p.1 = k)) = true
  · rw [if_pos hany]
    have e : (d.map fun p => if p.1 = k then (k, v) else p).map Prod.fst
        = d.map Prod.fst := by
      rw [List.map_map]
      apply List.map_congr_left
      intro p _
      by_cases hp : p.1 = k
      · simp [hp]
      · simp [hp]
    rw [e]; exact h
  · rw [if_neg hany, List.map_append]
    simp only [List.map_cons, List.map_nil]
    rw [List.nodup_append]
    refine ⟨h, List.nodup_singleton k, ?_⟩
    intro a ha hb
    simp only [List.mem_singleton] at hb
    subst hb
    obtain ⟨p, hp, hp1⟩ := List.mem_map.mp ha
    exact hany (List.any_eq_true.mpr ⟨p, hp, by simp [hp1]⟩)

lemma nodupKeys_dictUpdate (l : List (Str × Str)) :
    ∀ d, (d.map Prod.fst).Nodup → ((dictUpdate d l).map Prod.fst).Nodup := by
  induction l with
  | nil => intro d h; exact h
  | cons p rest ih =>
    intro d h
    rw [show p = (p.1, p.2) from rfl, dictUpdate_cons]
    exact ih _ (nodupKeys_dictInsert d p.1 p.2 h)

lemma nodupKeys_dictOfList (l : List (Str × Str)) :
    ((dictOfList l).map Prod.fst).Nodup :=
  nodupKeys_dictUpdate l [] (by simp)

lemma mem_iff_lookupKey (d : List (Str × Str))
    (h : (d.map Prod.fst).Nodup) (k v : Str) :
    (k, v) ∈ d ↔ lookupKey k d = some v := by
  induction d with
  | nil => simp [lookupKey]
  | cons p rest ih =>
    rw [List.map_cons, List.nodup_cons] at h
    constructor
    · intro hm
      rcases List.mem_cons.mp hm with he | ht
      · rw [← he, lookupKey, if_pos rfl]
      · have hk : k ∈ rest.map Prod.fst :=
          List.mem_map.mpr ⟨(k, v), ht, rfl⟩
        have hne : p.1 ≠ k := fun he2 => h.1 (he2 ▸ hk)
        rw [lookupKey, if_neg hne]
        exact (ih h.2 ).mp ht
    · intro hl
      rw [lookupKey] at hl
      by_cases hp : p.1 = k
      · rw [if_pos hp] at hl
        cases hl
        exact List.mem_cons.mpr (Or.inl (by rw [← hp]))
      · rw [if_neg hp] at hl
        exact List.mem_cons.mpr (Or.inr ((ih h.2).mpr hl))

lemma lookupKey_eq_none_iff (k : Str) (d : List (Str × Str)) :
    lookupKey k d = none ↔ k ∉ d.map Prod.fst := by
  induction d with
  | nil => simp [lookupKey]
  | cons p rest ih =>
    by_cases hp : p.1 = k
    · simp [lookupKey, hp]
    · simp [lookupKey, hp, ih, Ne.symm hp]

lemma filter_map_overwrite (pq : Str → Bool) (k v : Str)
    (d : List (Str × Str)) (hq : pq k = false) :
    (d.map fun p => if p.1 = k then (k, v) else p).filter (fun p => pq p.1)
      = d.filter (fun p => pq p.1) := by
  induction d with
  | nil => rfl
  | cons p rest ih =>
    by_cases hp : p.1 = k
    · rw [List.map_cons, if_pos hp, List.filter_cons, List.filter_cons]
      simp only [hq, hp]
      exact ih
    · rw [List.map_cons, if_neg hp, List.filter_cons, List.filter_cons]
      by_cases hpq : pq p.1 = true
      · simp only [hpq, if_pos]
        rw [ih]
      · simp only [hpq]
        simp only [Bool.false_eq_true, if_neg, ih]

lemma filter_dictInsert (pq : Str → Bool) (k v : Str)
    (d : List (Str × Str)) (hq : pq k = false) :
    (dictInsert d k v).filter (fun p => pq p.1)
      = d.filter (fun p => pq p.1) := by
  unfold dictInsert
  by_cases hany : d.any (fun p => decide (p.1 = k)) = true
  · rw [if_pos hany, filter_map_overwrite pq k v d hq]
  · rw [if_neg hany, List.filter_append]
    simp [hq]

lemma filter_dictUpdate (pq : Str → Bool) (l : List (Str × Str))
    (hl : ∀ kv ∈ l, pq kv.1 = false) :
    ∀ d, (dictUpdate d l).filter (fun p => pq p.1)
      = d.filter (fun p => pq p.1) := by
  induction l with
  | nil => intro d; rfl
  | cons p rest ih =>
    intro d
    rw [show p = (p.1, p.2) from rfl, dictUpdate_cons]
    rw [ih (fun kv hkv => hl kv (List.mem_cons_of_mem p hkv)) _]
    exact filter_dictInsert pq p.1 p.2 d (hl p (List.mem_cons_self p rest))

lemma mem_dropBlank (l : List (Str × Option Str)) (k v : Str) :
    (k, v) ∈ dropBlank l ↔ (k, some v) ∈ l ∧ v ≠ [] := by
  induction l with
  | nil => simp [dropBlank]
  | cons kv rest ih =>
    obtain ⟨k0, v0⟩ := kv
    cases v0 with
    | none =>
      simp only [dropBlank, List.filterMap_cons] at ih ⊢
      simp only [List.mem_cons]
      constructor
      · intro hm
        exact ⟨Or.inr (ih.mp hm).1, (ih.mp hm).2⟩
      · rintro ⟨hm | hm, hv⟩
        · cases hm
        · exact ih.mpr ⟨hm, hv⟩
    | some w =>
      by_cases hw : w = []
      · subst hw
        simp only [dropBlank, List.filterMap_cons, if_pos rfl] at ih ⊢
        simp only [List.mem_cons]
        constructor
        · intro hm
          exact ⟨Or.inr (ih.mp hm).1, (ih.mp hm).2⟩
        · rintro ⟨hm | hm, hv⟩
          · cases hm; exact absurd rfl hv
          · exact ih.mpr ⟨hm, hv⟩
      · simp only [dropBlank, List.filterMap_cons, if_neg hw] at ih ⊢
        simp only [List.mem_cons]
        constructor
        · intro hm
          rcases hm with he | hm
          · cases he
            exact ⟨Or.inl rfl, hw⟩
          · exact ⟨Or.inr (ih.mp hm).1, (ih.mp hm).2⟩
        · rintro ⟨hm | hm, hv⟩
          · cases hm
            exact Or.inl rfl
          · exact Or.inr (ih.mpr ⟨hm, hv⟩)

lemma keys_dropBlank_sublist (l : List (Str × Option Str)) :
    List.Sublist ((dropBlank l).map Prod.fst) (l.map Prod.fst) := by
  induction l with
  | nil => simp [dropBlank]
  | cons kv rest ih =>
    obtain ⟨k0, v0⟩ := kv
    cases v0 with
    | none =>
      simp only [dropBlank, List.filterMap_cons, List.map_cons]
      exact List.Sublist.cons k0 ih
    | some w =>
      by_cases hw : w = []
      · simp only [dropBlank, List.filterMap_cons, if_pos hw, List.map_cons]
        exact List.Sublist.cons k0 ih
      · simp only [dropBlank, List.filterMap_cons, if_neg hw, List.map_cons]
        exact List.Sublist.cons₂ k0 ih

lemma nodupKeys_unique {β : Type} (l : List (Str × β))
    (h : (l.map Prod.fst).Nodup) (k : Str) (a b : β)
    (ha : (k, a) ∈ l) (hb : (k, b) ∈ l) : a = b := by
  induction l with
  | nil => cases ha
  | cons p rest ih =>
    rw [List.map_cons, List.nodup_cons] at h
    rcases List.mem_cons.mp ha with hea | hta
    · rcases List.mem_cons.mp hb with heb | htb
      · rw [← hea] at heb
        exact (Prod.mk.injEq _ _ _ _ |>.mp heb).2.symm
      · exfalso
        apply h.1
        rw [← hea]
        exact List.mem_map.mpr ⟨(k, b), htb, rfl⟩
    · rcases List.mem_cons.mp hb with heb | htb
      · exfalso
        apply h.1
        rw [← heb]
        exact List.mem_map.mpr ⟨(k, a), hta, rfl⟩
      · exact ih h.2 hta htb

lemma utm_params_keys_nodup (r : CampaignRecord) :
    ((utm_params_list r).map Prod.fst).Nodup := by
  show ([kUtmSource, kUtmMedium, kUtmCampaign, kUtmId, kUtmTerm,
    kUtmContent] : List Str).Nodup
  decide

lemma nodup_utm_filtered (r : CampaignRecord) :
    ((utm_filtered r).map Prod.fst).Nodup :=
  List.Nodup.sublist (keys_dropBlank_sublist (utm_params_list r))
    (utm_params_keys_nodup r)

lemma build_eq_of_ok (base : Str) (r : CampaignRecord) (p : ParseResult)
    (hb : base ≠ []) (hp : urlparse (normalize_url base) = .ok p) :
    build_campaign_url base r =
      urlunparse ⟨p.scheme, p.netloc, p.path, p.params,
        urlencode (merged_query_pairs p.query r) ('/' :: []), p.fragment⟩ := by
  simp only [build_campaign_url, if_neg hb, hp]

/-- C1 -- Overwrite law: when the base URL parses and its decoded query
already binds a UTM key, and the record supplies a non-empty value for
that key, the merged query mapping of the built URL binds the key to the
new value and to nothing else (the old value is gone), and the built URL
is the reassembly around exactly this mapping. -/
theorem C1_overwrite (base : Str) (r : CampaignRecord) (p : ParseResult)
    (k vnew vold : Str)
    (hb : base ≠ [])
    (hp : urlparse (normalize_url base) = .ok p)
    (_hold : lookupKey k (dictOfList (parse_qsl p.query)) = some vold)
    (hnew : (k, vnew) ∈ utm_filtered r) :
    build_campaign_url base r =
      urlunparse ⟨p.scheme, p.netloc, p.path, p.params,
        urlencode (merged_query_pairs p.query r) ('/' :: []), p.fragment⟩
    ∧ lookupKey k (merged_query_pairs p.query r) = some vnew
    ∧ ∀ w, (k, w) ∈ merged_query_pairs p.query r → w = vnew := by
  have hnodupM : ((merged_query_pairs p.query r).map Prod.fst).Nodup :=
    nodupKeys_dictUpdate _ _ (nodupKeys_dictOfList _)
  have hlook : lookupKey k (merged_query_pairs p.query r) = some vnew := by
    unfold merged_query_pairs
    rw [lookupKey_dictUpdate]
    have hnodup' : (((utm_filtered r).reverse).map Prod.fst).Nodup := by
      rw [List.map_reverse]
      exact List.nodup_reverse.mpr (nodup_utm_filtered r)
    have hrev : lookupKey k (utm_filtered r).reverse = some vnew :=
      (mem_iff_lookupKey _ hnodup' k vnew).mp (List.mem_reverse.mpr hnew)
    rw [hrev]
  refine ⟨build_eq_of_ok base r p hb hp, hlook, ?_⟩
  intro w hw
  have h1 := (mem_iff_lookupKey _ hnodupM k w).mp hw
  rw [hlook] at h1
  cases h1
  rfl

def c1Base : Str := "https://example.com?utm_source=old".toList
def c1Rec : CampaignRecord := ⟨"new".toList, [], none, none, none, none⟩
def c1P : ParseResult :=
  ⟨"https".toList, "example.com".toList, [], [], "utm_source=old".toList, []⟩

/-- Witness for C1 at the spec's own example: base
`https://example.com?utm_source=old` with `source="new"`. -/
theorem C1_witness :
    build_campaign_url c1Base c1Rec =
      urlunparse ⟨c1P.scheme, c1P.netloc, c1P.path, c1P.params,
        urlencode (merged_query_pairs c1P.query c1Rec) ('/' :: []),
        c1P.fragment⟩
    ∧ lookupKey kUtmSource (merged_query_pairs c1P.query c1Rec) =
        some ("new".toList) :=
  (fun h => ⟨h.1, h.2.1⟩)
    (C1_overwrite c1Base c1Rec c1P kUtmSource ("new".toList) ("old".toList)
      (by decide) (by decide) (by decide) (by decide))

/-- C2 -- Unrelated-parameter preservation: when the base URL parses,
every existing query key that is not among the surviving UTM keys keeps,
in the merged mapping of the built URL, exactly the binding it had in the
decoded query (last occurrence winning on repeats), and the filtered
sub-list of non-UTM entries -- values and first-seen insertion order
included -- is unchanged by the merge. -/
theorem C2_preserves_unrelated (base : Str) (r : CampaignRecord)
    (p : ParseResult)
    (hb : base ≠ [])
    (hp : urlparse (normalize_url base) = .ok p) :
    build_campaign_url base r =
      urlunparse ⟨p.scheme, p.netloc, p.path, p.params,
        urlencode (merged_query_pairs p.query r) ('/' :: []), p.fragment⟩
    ∧ (merged_query_pairs p.query r).filter
        (fun q => decide (q.1 ∉ (utm_filtered r).map Prod.fst))
      = (dictOfList (parse_qsl p.query)).filter
        (fun q => decide (q.1 ∉ (utm_filtered r).map Prod.fst))
    ∧ ∀ k, k ∉ (utm_filtered r).map Prod.fst →
        lookupKey k (merged_query_pairs p.query r) =
          lastLookup k (parse_qsl p.query) := by
  refine ⟨build_eq_of_ok base r p hb hp, ?_, ?_⟩
  · unfold merged_query_pairs
    refine filter_dictUpdate
      (fun s => decide (s ∉ (utm_filtered r).map Prod.fst))
      (utm_filtered r) ?_ (dictOfList (parse_qsl p.query))
    intro kv hkv
    have hmem : kv.1 ∈ (utm_filtered r).map Prod.fst :=
      List.mem_map.mpr ⟨kv, hkv, rfl⟩
    simp [hmem]
  · intro k hk
    unfold merged_query_pairs lastLookup
    rw [lookupKey_dictUpdate]
    have hnone : lookupKey k (utm_filtered r).reverse = none := by
      rw [lookupKey_eq_none_iff, List.map_reverse, List.mem_reverse]
      exact hk
    rw [hnone]
    unfold dictOfList
    rw [lookupKey_dictUpdate]
    cases h2 : lookupKey k (parse_qsl p.query).reverse <;> simp [lookupKey]

def c2Base : Str := "https://example.com?existing=param&utm_source=old".toList
def c2Rec : CampaignRecord :=
  ⟨"google".toList, "cpc".toList, some ("spring_sale".toList), none, none,
   none⟩
def c2P : ParseResult :=
  ⟨"https".toList, "example.com".toList, [], [],
   "existing=param&utm_source=old".toList, []⟩

/-- Witness for C2 at the spec's example base with an unrelated
`existing=param` entry. -/
theorem C2_witness :
    build_campaign_url c2Base c2Rec =
      urlunparse ⟨c2P.scheme, c2P.netloc, c2P.path, c2P.params,
        urlencode (merged_query_pairs c2P.query c2Rec) ('/' :: []),
        c2P.fragment⟩
    ∧ (merged_query_pairs c2P.query c2Rec).filter
        (fun q => decide (q.1 ∉ (utm_filtered c2Rec).map Prod.fst))
      = (dictOfList (parse_qsl c2P.query)).filter
        (fun q => decide (q.1 ∉ (utm_filtered c2Rec).map Prod.fst))
    ∧ lookupKey ("existing".toList) (merged_query_pairs c2P.query c2Rec) =
        lastLookup ("existing".toList) (parse_qsl c2P.query) :=
  (fun h => ⟨h.1, h.2.1, h.2.2 ("existing".toList) (by decide)⟩)
    (C2_preserves_unrelated c2Base c2Rec c2P (by decide) (by decide))

/-- C3 -- Blank record fields never merge: when the base URL parses and a
record field that maps to some utm_ key is null or empty, the merged
mapping of the built URL binds that key exactly as the decoded existing
query does -- the key is neither introduced nor overwritten. -/
theorem C3_blank_never_merges (base : Str) (r : CampaignRecord)
    (p : ParseResult) (k : Str) (ov : Option Str)
    (hb : base ≠ [])
    (hp : urlparse (normalize_url base) = .ok p)
    (hmem : (k, ov) ∈ utm_params_list r)
    (hblank : ov = none ∨ ov = some []) :
    build_campaign_url base r =
      urlunparse ⟨p.scheme, p.netloc, p.path, p.params,
        urlencode (merged_query_pairs p.query r) ('/' :: []), p.fragment⟩
    ∧ lookupKey k (merged_query_pairs p.query r) =
        lookupKey k (dictOfList (parse_qsl p.query)) := by
  have hkey : k ∉ (utm_filtered r).map Prod.fst := by
    intro hk
    obtain ⟨q, hq, hq1⟩ := List.mem_map.mp hk
    obtain ⟨k2, w⟩ := q
    simp only at hq1
    subst hq1
    have hw := (mem_dropBlank (utm_params_list r) k2 w).mp hq
    have heq := nodupKeys_unique (utm_params_list r)
      (utm_params_keys_nodup r) k2 ov (some w) hmem hw.1
    rcases hblank with h | h
    · rw [h] at heq; cases heq
    · rw [h] at heq
      cases heq
      exact hw.2 rfl
  refine ⟨build_eq_of_ok base r p hb hp, ?_⟩
  unfold merged_query_pairs
  rw [lookupKey_dictUpdate]
  have hnone : lookupKey k (utm_filtered r).reverse = none := by
    rw [lookupKey_eq_none_iff, List.map_reverse, List.mem_reverse]
    exact hkey
  rw [hnone]

def c3Base : Str := "https://example.com?utm_campaign=keep".toList
def c3Rec : CampaignRecord :=
  ⟨"s".toList, "m".toList, none, none, none, some []⟩

/-- Witness for C3: an absent `campaign_name` leaves an existing
`utm_campaign=keep` binding untouched. -/
theorem C3_witness :
    build_campaign_url c3Base c3Rec =
      urlunparse ⟨c1P.scheme, "example.com".toList, [], [],
        urlencode (merged_query_pairs ("utm_campaign=keep".toList) c3Rec)
          ('/' :: []), []⟩
    ∧ lookupKey kUtmCampaign
        (merged_query_pairs ("utm_campaign=keep".toList) c3Rec) =
      lookupKey kUtmCampaign
        (dictOfList (parse_qsl ("utm_campaign=keep".toList))) :=
  C3_blank_never_merges c3Base c3Rec
    ⟨"https".toList, "example.com".toList, [], [],
     "utm_campaign=keep".toList, []⟩
    kUtmCampaign none (by decide) (by decide) (by decide) (Or.inl rfl)

/-! ### Parse-failure degradation and the scheme-prefix invariant -/

lemma build_eq_of_error (base : Str) (r : CampaignRecord)
    (h : urlparse (normalize_url base) = .error ()) :
    build_campaign_url base r = normalize_url base := by
  by_cases hb : base = []
  · exact absurd h (by subst hb; decide)
  · simp only [build_campaign_url, if_neg hb, h]

/-- C7 -- Graceful degradation: `build_campaign_url` is a total function
of its inputs, and whenever structural parsing of the normalized base URL
fails, it returns the normalized-but-unparsed string unchanged. -/
theorem C7_degrades_on_parse_failure (base : Str) (r : CampaignRecord)
    (h : urlparse (normalize_url base) = .error ()) :
    build_campaign_url base r = normalize_url base :=
  build_eq_of_error base r h

/-- Witness for C7: `http://[x` trips the bracket-mismatch `ValueError`
of `urlsplit`, and build returns the normalized string itself. -/
theorem C7_witness :
    urlparse (normalize_url ("http://[x".toList)) = .error () ∧
    build_campaign_url ("http://[x".toList) blankRecord =
      normalize_url ("http://[x".toList) :=
  ⟨by decide, C7_degrades_on_parse_failure _ blankRecord (by decide)⟩

lemma findChar_colon_http (rest : Str) :
    findChar ':' ('h' :: 't' :: 't' :: 'p' :: ':' :: rest) = some 4 := rfl

lemma findChar_colon_https (rest : Str) :
    findChar ':' ('h' :: 't' :: 't' :: 'p' :: 's' :: ':' :: rest) = some 5 :=
  rfl

lemma splitScheme_http (rest : Str) :
    splitScheme ('h' :: 't' :: 't' :: 'p' :: ':' :: rest) =
      ("http".toList, rest) := rfl

lemma splitScheme_https (rest : Str) :
    splitScheme ('h' :: 't' :: 't' :: 'p' :: 's' :: ':' :: rest) =
      ("https".toList, rest) := rfl

lemma urlsplit_scheme_http (rest : Str) (s : SplitResult)
    (h : urlsplit (httpPrefix ++ rest) = .ok s) :
    s.scheme = "http".toList := by
  have e1 : lstripControl (httpPrefix ++ rest) = httpPrefix ++ rest := by
    rw [httpPrefix_eq]
    simp only [List.cons_append]
    exact List.dropWhile_cons_of_neg (by decide)
  have e2 : removeUnsafeBytes (httpPrefix ++ rest) =
      httpPrefix ++ removeUnsafeBytes rest := by
    unfold removeUnsafeBytes
    rw [List.filter_append]
    rfl
  have e3 : splitScheme (httpPrefix ++ removeUnsafeBytes rest) =
      ("http".toList, '/' :: '/' :: removeUnsafeBytes rest) := by
    rw [httpPrefix_eq]
    simp only [List.cons_append, List.nil_append]
    exact splitScheme_http _
  simp only [urlsplit, e1, e2, e3, List.take_succ_cons, List.take_zero,
    if_true] at h
  split at h
  · cases h
  · split at h
    · split at h
      · injection h with h2
        rw [← h2]
      · cases h
    · injection h with h2
      rw [← h2]

lemma urlsplit_scheme_https (rest : Str) (s : SplitResult)
    (h : urlsplit (httpsPrefix ++ rest) = .ok s) :
    s.scheme = "https".toList := by
  have e1 : lstripControl (httpsPrefix ++ rest) = httpsPrefix ++ rest := by
    rw [httpsPrefix_eq]
    simp only [List.cons_append]
    exact List.dropWhile_cons_of_neg (by decide)
  have e2 : removeUnsafeBytes (httpsPrefix ++ rest) =
      httpsPrefix ++ removeUnsafeBytes rest := by
    unfold removeUnsafeBytes
    rw [List.filter_append]
    rfl
  have e3 : splitScheme (httpsPrefix ++ removeUnsafeBytes rest) =
      ("https".toList, '/' :: '/' :: removeUnsafeBytes rest) := by
    rw [httpsPrefix_eq]
    simp only [List.cons_append, List.nil_append]
    exact splitScheme_https _
  simp only [urlsplit, e1, e2, e3, List.take_succ_cons, List.take_zero,
    if_true] at h
  split at h
  · cases h
  · split at h
    · split at h
      · injection h with h2
        rw [← h2]
      · cases h
    · injection h with h2
      rw [← h2]

lemma urlparse_scheme (u : Str) (p : ParseResult)
    (h : urlparse u = .ok p) :
    ∃ s, urlsplit u = .ok s ∧ p.scheme = s.scheme := by
  cases hs : urlsplit u with
  | error e =>
    simp only [urlparse, hs] at h
    exact Except.noConfusion h
  | ok s =>
    simp only [urlparse, hs] at h
    refine ⟨s, rfl, ?_⟩
    split at h
    · injection h with h2
      rw [← h2]
    · injection h with h2
      rw [← h2]

lemma exists_scheme_tail (sch u1 q f : Str) :
    ∃ tail,
      (if f ≠ [] then
        (if q ≠ [] then (sch ++ ':' :: u1) ++ '?' :: q
         else sch ++ ':' :: u1) ++ '#' :: f
       else
        (if q ≠ [] then (sch ++ ':' :: u1) ++ '?' :: q
         else sch ++ ':' :: u1)) = sch ++ ':' :: tail := by
  by_cases hq : q ≠ []
  · by_cases hf : f ≠ []
    · refine ⟨(u1 ++ '?' :: q) ++ '#' :: f, ?_⟩
      rw [if_pos hf, if_pos hq]
      simp [List.append_assoc]
    · refine ⟨u1 ++ '?' :: q, ?_⟩
      rw [if_neg hf, if_pos hq]
      simp [List.append_assoc]
  · by_cases hf : f ≠ []
    · refine ⟨u1 ++ '#' :: f, ?_⟩
      rw [if_pos hf, if_neg hq]
      simp [List.append_assoc]
    · refine ⟨u1, ?_⟩
      rw [if_neg hf, if_neg hq]

lemma urlunsplit_prefix (c : SplitResult) (h : c.scheme ≠ []) :
    ∃ tail, urlunsplit c = c.scheme ++ ':' :: tail := by
  simp only [urlunsplit]
  rw [if_pos h]
  exact exists_scheme_tail c.scheme _ c.query c.fragment

lemma urlunparse_prefix (p : ParseResult) (h : p.scheme ≠ []) :
    ∃ tail, urlunparse p = p.scheme ++ ':' :: tail :=
  urlunsplit_prefix _ h

/-- C10 -- Scheme invariant: for every base URL whose trimmed form is
non-empty, the string returned by `build_campaign_url` starts with
`http:` or with `https:`, both when structural parsing succeeds (the
parsed scheme is reassembled in front) and when it fails (the normalized
string, which carries a scheme prefix, is returned). -/
theorem C10_output_has_scheme (base : Str) (r : CampaignRecord)
    (h : strip base ≠ []) :
    startswith ("http:".toList) (build_campaign_url base r) = true ∨
    startswith ("https:".toList) (build_campaign_url base r) = true := by
  have hb : base ≠ [] := by
    intro hn; apply h; rw [hn]; rfl
  have hn : (∃ q, normalize_url base = httpPrefix ++ q) ∨
      (∃ q, normalize_url base = httpsPrefix ++ q) := by
    simp only [normalize_url, if_neg hb]
    by_cases hp1 : startswith httpPrefix (strip base) = true
    · left
      obtain ⟨q, hq⟩ := (startswith_iff _ _).mp hp1
      rw [if_pos (by rw [hp1, Bool.true_or])]
      exact ⟨q, hq⟩
    · by_cases hp2 : startswith httpsPrefix (strip base) = true
      · right
        rw [if_pos (by rw [hp2, Bool.or_true])]
        exact (startswith_iff _ _).mp hp2
      · right
        rw [if_neg (by simp [hp1, hp2])]
        exact ⟨strip base, rfl⟩
  rcases hn with ⟨q, hq⟩ | ⟨q, hq⟩
  · left
    cases hres : urlparse (normalize_url base) with
    | error e =>
      cases e
      rw [build_eq_of_error base r hres, hq]
      rw [show httpPrefix = "http:".toList ++ ('/' :: '/' :: []) from rfl,
        List.append_assoc]
      exact startswith_append _ _
    | ok p =>
      obtain ⟨s, hsplit, hscheme⟩ := urlparse_scheme _ p hres
      have hs : s.scheme = "http".toList := by
        apply urlsplit_scheme_http q s
        rw [← hq]
        exact hsplit
      rw [build_eq_of_ok base r p hb hres]
      obtain ⟨tail, htail⟩ := urlunparse_prefix
        ⟨p.scheme, p.netloc, p.path, p.params,
         urlencode (merged_query_pairs p.query r) ('/' :: []), p.fragment⟩
        (by simp only []; rw [hscheme, hs]; decide)
      rw [htail]
      simp only []
      rw [hscheme, hs]
      rw [show ("http".toList : Str) ++ ':' :: tail =
        "http:".toList ++ tail from rfl]
      exact startswith_append _ _
  · right
    cases hres : urlparse (normalize_url base) with
    | error e =>
      cases e
      rw [build_eq_of_error base r hres, hq]
      rw [show httpsPrefix = "https:".toList ++ ('/' :: '/' :: []) from rfl,
        List.append_assoc]
      exact startswith_append _ _
    | ok p =>
      obtain ⟨s, hsplit, hscheme⟩ := urlparse_scheme _ p hres
      have hs : s.scheme = "https".toList := by
        apply urlsplit_scheme_https q s
        rw [← hq]
        exact hsplit
      rw [build_eq_of_ok base r p hb hres]
      obtain ⟨tail, htail⟩ := urlunparse_prefix
        ⟨p.scheme, p.netloc, p.path, p.params,
         urlencode (merged_query_pairs p.query r) ('/' :: []), p.fragment⟩
        (by simp only []; rw [hscheme, hs]; decide)
      rw [htail]
      simp only []
      rw [hscheme, hs]
      rw [show ("https".toList : Str) ++ ':' :: tail =
        "https:".toList ++ tail from rfl]
      exact startswith_append _ _

/-- Witness for C10 at the scheme-bare base `example.com`. -/
theorem C10_witness :
    startswith ("http:".toList)
      (build_campaign_url ("example.com".toList) blankRecord) = true ∨
    startswith ("https:".toList)
      (build_campaign_url ("example.com".toList) blankRecord) = true :=
  C10_output_has_scheme ("example.com".toList) blankRecord (by decide)

/-! ### The linter and the reachability validator -/

lemma space_implies_special (s : Str) (h : hasSpace s = true) :
    hasSpecial s = true := by
  obtain ⟨c, hc, hc2⟩ := List.any_eq_true.mp h
  refine List.any_eq_true.mpr ⟨c, hc, ?_⟩
  have he : c = ' ' := by simpa using hc2
  subst he
  decide

lemma msgs_distinct :
    msg_uppercase ≠ msg_spaces ∧ msg_uppercase ≠ msg_special ∧
    msg_spaces ≠ msg_special := by decide

/-- C6 -- Linter characterization: the warning list is always an ordered
sub-list of the fixed sequence [uppercase, spaces, special]; each warning
is present exactly when its own condition holds on a non-empty value (a
space makes both the spaces and the special-characters warnings appear);
a null or empty value yields no warnings. -/
theorem C6_lint_characterization (v : Option Str) :
    List.Sublist (lint_utm_parameter v)
      [msg_uppercase, msg_spaces, msg_special]
  ∧ (msg_uppercase ∈ lint_utm_parameter v ↔
      ∃ s, v = some s ∧ s ≠ [] ∧ hasUppercase s = true)
  ∧ (msg_spaces ∈ lint_utm_parameter v ↔
      ∃ s, v = some s ∧ s ≠ [] ∧ hasSpace s = true)
  ∧ (msg_special ∈ lint_utm_parameter v ↔
      ∃ s, v = some s ∧ s ≠ [] ∧ hasSpecial s = true)
  ∧ (∀ s, v = some s → hasSpace s = true →
      msg_spaces ∈ lint_utm_parameter v ∧
      msg_special ∈ lint_utm_parameter v)
  ∧ ((v = none ∨ v = some []) → lint_utm_parameter v = []) := by
  obtain ⟨d12, d13, d23⟩ := msgs_distinct
  cases v with
  | none =>
    refine ⟨by simp [lint_utm_parameter], ?_, ?_, ?_, ?_, ?_⟩ <;>
      simp [lint_utm_parameter]
  | some s =>
    by_cases hs0 : s = []
    · subst hs0
      refine ⟨by simp [lint_utm_parameter], ?_, ?_, ?_, ?_, ?_⟩ <;>
        simp [lint_utm_parameter, hasSpace]
    · have hlint : lint_utm_parameter (some s) =
          (if hasUppercase s then [msg_uppercase] else []) ++
          (if hasSpace s then [msg_spaces] else []) ++
          (if hasSpecial s then [msg_special] else []) := by
        simp [lint_utm_parameter, hs0, hasUppercase, hasSpace, hasSpecial]
      by_cases hU : hasUppercase s = true <;>
        by_cases hSp : hasSpace s = true <;>
          by_cases hX : hasSpecial s = true
      all_goals
        first
        | exact absurd (space_implies_special s (by assumption)) (by assumption)
        | (refine ⟨?_, ?_, ?_, ?_, ?_, ?_⟩ <;>
            simp_all [hlint, d12, d13, d23, Ne.symm d12, Ne.symm d13,
              Ne.symm d23])

/-- Witness for C6 at the spec's example value `Spring Sale!`. -/
theorem C6_witness :
    List.Sublist (lint_utm_parameter (some ("Spring Sale!".toList)))
      [msg_uppercase, msg_spaces, msg_special]
  ∧ msg_spaces ∈ lint_utm_parameter (some ("Spring Sale!".toList))
  ∧ msg_special ∈ lint_utm_parameter (some ("Spring Sale!".toList)) :=
  ⟨(C6_lint_characterization (some ("Spring Sale!".toList))).1,
   (C6_lint_characterization (some ("Spring Sale!".toList))).2.2.2.2.1
     ("Spring Sale!".toList) rfl (by decide)⟩

/-- C8 counterexample -- The claim that an empty or blank URL yields
`false` with no probe issued fails on the code: only the empty URL is
short-circuited; for the blank URL `" "` a HEAD probe is issued (here it
raises, as a malformed URL does, and the result is still `false`). -/
theorem C8_counterexample :
    (validate_url_reachability (' ' :: []) ⟨.exn, .exn⟩).headCalls = 1 ∧
    (validate_url_reachability (' ' :: []) ⟨.exn, .exn⟩).reachable = false := by
  decide

/-- C8 (amended) -- The reachability validator is total (never raises in
the model); the empty URL yields `false` with no probe; every non-empty
URL (blank ones included) is probed exactly once with HEAD, a 405 HEAD
status triggers exactly one GET whose status decides, and the result is
`true` iff the final observed status lies in [200, 400) -- `false` on a
raised probe. -/
theorem C8_reachability (url : Str) (env : ProbeEnv) :
    validate_url_reachability [] env = ⟨false, 0, 0⟩
  ∧ (url ≠ [] →
      ((validate_url_reachability url env).reachable = true ↔
        ∃ c, final_observed_status env = some c ∧ 200 ≤ c ∧ c < 400)
      ∧ (validate_url_reachability url env).headCalls = 1
      ∧ ((validate_url_reachability url env).getCalls =
          if env.headOutcome = .status 405 then 1 else 0)) := by
  constructor
  · rfl
  · intro hu
    obtain ⟨ho, go⟩ := env
    cases ho with
    | exn =>
      simp [validate_url_reachability, final_observed_status, hu]
    | status c =>
      by_cases hc : c = 405
      · subst hc
        cases go with
        | exn =>
          simp [validate_url_reachability, final_observed_status, hu]
        | status g =>
          simp [validate_url_reachability, final_observed_status, hu]
      · cases go with
        | exn =>
          simp [validate_url_reachability, final_observed_status, hu, hc]
        | status g =>
          simp [validate_url_reachability, final_observed_status, hu, hc]

/-- Witness for C8: the empty URL issues no probe, and the HEAD-405 /
GET-200 oracle is probed once each and reported reachable. -/
theorem C8_witness :
    validate_url_reachability [] ⟨.status 200, .exn⟩ = ⟨false, 0, 0⟩
  ∧ (((validate_url_reachability ('x' :: [])
        ⟨.status 405, .status 200⟩).reachable = true ↔
      ∃ c, final_observed_status ⟨.status 405, .status 200⟩ = some c ∧
        200 ≤ c ∧ c < 400)
    ∧ (validate_url_reachability ('x' :: [])
        ⟨.status 405, .status 200⟩).headCalls = 1
    ∧ ((validate_url_reachability ('x' :: [])
        ⟨.status 405, .status 200⟩).getCalls =
        if (⟨.status 405, .status 200⟩ : ProbeEnv).headOutcome =
            ProbeOutcome.status 405 then 1 else 0)) :=
  ⟨(C8_reachability [] ⟨.status 200, .exn⟩).1,
   (C8_reachability ('x' :: []) ⟨.status 405, .status 200⟩).2 (by decide)⟩
